import Mathlib

/-!
Shallow embedding of the `ReliabilityCache` subsystem of the zenoh
repository (`src/zenoh-ext/src/reliability_cache.rs`) together with the
parts of the key-expression engine it relies on.

The key-expression engine (`KeyExpr`, `intersects`, `join`) is not part of
the sources available here, so it is modelled from the specification:
a key expression is a non-empty sequence of slash-separated chunks, each
chunk non-empty; the chunk `*` matches one chunk, `**` matches any run of
chunks; `join(a, b)` concatenates with a separator and must yield a valid
key expression.

The cache itself (history-bounded per-key FIFO, global key cap, exact and
wildcard query answering, the event loop, builder validation and close)
is embedded directly from the Rust source.
-/

namespace ZenohRC

/-- A sample, as consumed by the cache: a key expression (kept as its chunk
list) and an opaque payload. -/
structure Sample where
  key_expr : List String
  payload : Nat
deriving DecidableEq, Repr

/-- The cache store: the embedding of the task-local
`HashMap<OwnedKeyExpr, VecDeque<Sample>>`, as an insertion-ordered
association list (reachable stores have pairwise distinct keys). -/
abbrev Store := List (List String × List Sample)

/-- Whether the string contains the character (the model of Rust's
`str::contains(char)`, phrased over the character list). -/
def strHasChar (s : String) (ch : Char) : Bool := s.data.any (fun c => c == ch)

/-- Modelled from the spec: a chunk of a key expression is non-empty and
contains no slash. -/
def chunkOk (c : String) : Bool := (!c.data.isEmpty) && (!strHasChar c '/')

/-- Modelled from the spec: a key expression is a non-empty list of valid
chunks. -/
def keOk (k : List String) : Bool := (!k.isEmpty) && k.all chunkOk

/-- Modelled from the spec: a concrete key expression contains no wildcard
chunk (`*` or `**` or embedded star). -/
def keConcrete (k : List String) : Bool := keOk k && k.all (fun c => !strHasChar c '*')

/-- Modelled from the spec: chunk-level match used by intersection, for the
single-chunk wildcard `*` (the `**` chunk is treated by `intersects`). -/
def chunkIntersect (a b : String) : Bool := a == b || a == "*" || b == "*"

/-- Modelled from the spec: `intersects a b` — whether some concrete key
matches both patterns, by simultaneous chunk-wise matching where `**`
matches any run of chunks. -/
def intersects : List String → List String → Bool
  | [], [] => true
  | [], b :: bs => b == "**" && intersects [] bs
  | a :: as, [] => a == "**" && intersects as []
  | a :: as, b :: bs =>
      if a == "**" then intersects as (b :: bs) || intersects (a :: as) bs
      else if b == "**" then intersects (a :: as) bs || intersects as (b :: bs)
      else chunkIntersect a b && intersects as bs
termination_by a b => a.length + b.length

/-- Modelled from the spec: `join a b` produces `a ++ "/" ++ b` (chunk-list
concatenation) and fails with `InvalidKeyExpr` if the result would be
malformed. -/
def keJoin (a b : List String) : Option (List String) :=
  if keOk (a ++ b) then some (a ++ b) else none

/-- Whether the textual form of the key expression contains a `*` character
(the code's `query.selector().key_expr.as_str().contains('*')`). -/
def selHasStar (sel : List String) : Bool := sel.any (fun c => strHasChar c '*')

/-- `cache.get(k)`: first binding of `k` in the store, if any. -/
def storeGet : Store → List String → Option (List Sample)
  | [], _ => none
  | e :: rest, k => if e.1 = k then some e.2 else storeGet rest k

/-- Replace the queue bound to `k` (the effect of mutating through
`cache.get_mut(k)`). -/
def storeUpdate : Store → List String → List Sample → Store
  | [], _, _ => []
  | e :: rest, k, q => if e.1 = k then (k, q) :: storeUpdate rest k q else e :: storeUpdate rest k q

/-- The stored key derived for a received sample: the prefix joined with
the sample's key when a queryable prefix is configured, the sample's key
itself otherwise (`none` when the join fails). -/
def storedKeyOf (pfxOpt : Option (List String)) (k : List String) : Option (List String) :=
  match pfxOpt with
  | some p => keJoin p k
  | none => some k

/-- The insertion policy of the sample branch (`reliability_cache.rs`
lines 176-188): an existing entry pops its head when full and pushes the
sample at the tail; a new entry is created only below the resource limit,
otherwise the sample is discarded and an error logged (the `Bool`). -/
def cacheInsert (history limit : Nat) (cache : Store) (storedKey : List String)
    (sample : Sample) : Store × Bool :=
  match storeGet cache storedKey with
  | some queue =>
      let queue' := if queue.length ≥ history then queue.tail else queue
      (storeUpdate cache storedKey (queue' ++ [sample]), false)
  | none =>
      if cache.length ≥ limit then
        (cache, true)
      else
        (cache ++ [(storedKey, [sample])], false)

/-- Embedding of the sample branch of the cache task loop
(`reliability_cache.rs` lines 168-189): derive the stored key (the source
unwraps the prefix join, so a join failure is a panic, modelled as
`none`), then insert with the history bound and the resource limit. -/
def handleSample (history limit : Nat) (pfxOpt : Option (List String))
    (cache : Store) (sample : Sample) : Option (Store × Bool) :=
  match storedKeyOf pfxOpt sample.key_expr with
  | none => none
  | some storedKey => some (cacheInsert history limit cache storedKey sample)

/-- Embedding of the query branch of the cache task loop
(`reliability_cache.rs` lines 193-214): the replies sent, in order. With no
`*` in the selector, an exact `cache.get`; otherwise a scan of all entries
replying every sample of every entry whose stored key the selector
intersects. -/
def answerQuery (cache : Store) (sel : List String) : List Sample :=
  if !selHasStar sel then
    match storeGet cache sel with
    | some queue => queue
    | none => []
  else
    (cache.filter (fun e => intersects sel e.1)).flatMap (fun e => e.2)

/-- One event arriving at the cache task's select loop: a receive on the
sample channel (`none` = channel error), a receive on the query channel
carrying the selector (`none` = channel error), or the shutdown channel
firing (a value or closure of `stoprx`). -/
inductive Event where
  | sampleRecv (r : Option Sample)
  | queryRecv (r : Option (List String))
  | stopRecv
deriving DecidableEq, Repr

/-- How one loop iteration ends: continue looping, return (shutdown), or
panic (the unwrap on a failed prefix join). -/
inductive Outcome where
  | next
  | halted
  | crashed
deriving DecidableEq, Repr

/-- Result of one iteration of the cache task loop. -/
structure StepOut where
  cache : Store
  replies : List Sample
  warnLogs : Nat
  outcome : Outcome
deriving DecidableEq, Repr

/-- Embedding of one iteration of the cache task's `select!` loop
(`reliability_cache.rs` lines 165-222). `replyOk i` tells whether the
`i`-th reply of this iteration succeeds; a failed reply is only logged
(`warnLogs` counts the warnings). -/
def step (history limit : Nat) (pfxOpt : Option (List String)) (replyOk : Nat → Bool)
    (cache : Store) (ev : Event) : StepOut :=
  match ev with
  | .sampleRecv none => ⟨cache, [], 0, .next⟩
  | .sampleRecv (some s) =>
      match handleSample history limit pfxOpt cache s with
      | some (c, _) => ⟨c, [], 0, .next⟩
      | none => ⟨cache, [], 0, .crashed⟩
  | .queryRecv none => ⟨cache, [], 0, .next⟩
  | .queryRecv (some sel) =>
      let rs := answerQuery cache sel
      ⟨cache, rs, ((List.range rs.length).filter (fun i => !replyOk i)).length, .next⟩
  | .stopRecv => ⟨cache, [], 0, .halted⟩

/-- Fold a sequence of events through the task loop (the store after the
events, ignoring a halt: halting events leave the store untouched). -/
def runEvents (history limit : Nat) (pfxOpt : Option (List String)) (replyOk : Nat → Bool)
    (cache : Store) (evs : List Event) : Store :=
  evs.foldl (fun c ev => (step history limit pfxOpt replyOk c ev).cache) cache

/-- Insert a sequence of samples (no prefix configured, so each sample is
stored under its own key), as the sample branch does. -/
def insertAll (history limit : Nat) (cache : Store) (ss : List Sample) : Store :=
  ss.foldl (fun c s => (cacheInsert history limit c s.key_expr s).1) cache

/-- Side effects of builder validation and declaration, and of close. -/
inductive Effect where
  | declSub (ke : List String)
  | declQueryable (ke : List String)
  | spawnTask
  | undeclQueryable
  | undeclSub
  | dropStop
deriving DecidableEq, Repr

/-- The builder's configuration as `ReliabilityCache::new` receives it:
the two key expressions arrive as parse results (`ZResult<KeyExpr>`). -/
structure BuilderCfg where
  pub_key_expr : Except String (List String)
  queryablePfx : Option (Except String (List String))
  history : Nat
  resources_limit : Option Nat
deriving Repr

/-- Embedding of `ReliabilityCache::new` (lines 119-230): validate
`pub_key_expr`, then the optional prefix (bailing before any declaration),
compute the queryable key expression, then declare the subscriber, the
queryable, and spawn the task. `subOk`/`querOk` give the session's answers
to the two declarations. Returns the result together with the ordered list
of side effects performed. -/
def newCache (conf : BuilderCfg) (subOk querOk : Bool) :
    Except String (List String × Option (List String)) × List Effect :=
  match conf.pub_key_expr with
  | .error e => (.error e, [])
  | .ok key_expr =>
    match conf.queryablePfx with
    | some (.error _) => (.error "Invalid key expression for queryable_prefix", [])
    | other =>
      let pfxOpt : Option (List String) :=
        match other with
        | some (.ok ke) => some ke
        | _ => none
      let queryable_key_expr : List String :=
        match pfxOpt with
        | some ke => ke ++ key_expr
        | none => key_expr
      if !subOk then
        (.error "declare subscriber failed", [.declSub key_expr])
      else if !querOk then
        (.error "declare queryable failed", [.declSub key_expr, .declQueryable queryable_key_expr])
      else
        (.ok (key_expr, pfxOpt),
         [.declSub key_expr, .declQueryable queryable_key_expr, .spawnTask])

/-- Embedding of `ReliabilityCache::close` (lines 234-246): await the
undeclare of the queryable, then of the subscriber, then drop the stop
sender (which closes the shutdown channel and makes the task return), then
resolve `Ok(())`. `querOk`/`subOk` give the outcomes of the two
undeclarations. -/
def closeCache (querOk subOk : Bool) : Except String Unit × List Effect :=
  if !querOk then
    (.error "undeclare queryable failed", [.undeclQueryable])
  else if !subOk then
    (.error "undeclare subscriber failed", [.undeclQueryable, .undeclSub])
  else
    (.ok (), [.undeclQueryable, .undeclSub, .dropStop])

/-- Keys of the store, in store order. -/
def storeKeys (c : Store) : List (List String) := c.map Prod.fst

/-- All stored keys are valid key expressions. -/
def storeKeysOk (c : Store) : Bool := (storeKeys c).all keOk

/-- Validity of the configured queryable prefix, when present. -/
def pfxOk : Option (List String) → Bool
  | none => true
  | some p => keOk p

/-- Validity of the key carried by an event: a sample's key is a
constructed `KeyExpr`, hence a valid key expression. -/
def evOk : Event → Bool
  | .sampleRecv (some s) => keOk s.key_expr
  | _ => true

/-- Validity of the keys carried by a sequence of events. -/
def evsOk (evs : List Event) : Bool := evs.all evOk

/-! ### Basic lemmas about the store and the key-expression model -/

lemma keOk_append {a b : List String} (ha : keOk a = true) (hb : keOk b = true) :
    keOk (a ++ b) = true := by
  simp only [keOk, Bool.and_eq_true, Bool.not_eq_true'] at ha hb ⊢
  refine ⟨?_, ?_⟩
  · cases a <;> simp_all
  · simp only [List.all_append, ha.2, hb.2, Bool.and_self]

lemma keJoin_of_keOk {a b : List String} (ha : keOk a = true) (hb : keOk b = true) :
    keJoin a b = some (a ++ b) := by
  simp [keJoin, keOk_append ha hb]

lemma storeGet_singleton (k : List String) (q : List Sample) : storeGet [(k, q)] k = some q := by
  simp [storeGet]

lemma storeUpdate_singleton (k : List String) (q q' : List Sample) :
    storeUpdate [(k, q)] k q' = [(k, q')] := by
  simp [storeUpdate]

lemma storeUpdate_length (c : Store) (k : List String) (q : List Sample) :
    (storeUpdate c k q).length = c.length := by
  induction c with
  | nil => rfl
  | cons e rest ih => by_cases he : e.1 = k <;> simp [storeUpdate, he, ih]

lemma storeKeys_storeUpdate (c : Store) (k : List String) (q : List Sample) :
    storeKeys (storeUpdate c k q) = storeKeys c := by
  induction c with
  | nil => rfl
  | cons e rest ih =>
    simp only [storeKeys, List.map_cons] at ih ⊢
    by_cases he : e.1 = k
    · rw [storeUpdate, if_pos he, List.map_cons, ih, he]
    · rw [storeUpdate, if_neg he, List.map_cons, ih]

lemma storeGet_eq_none_iff (c : Store) (k : List String) :
    storeGet c k = none ↔ k ∉ storeKeys c := by
  induction c with
  | nil => simp [storeGet, storeKeys]
  | cons e rest ih =>
    simp only [storeKeys, List.map_cons, List.mem_cons, not_or] at ih ⊢
    by_cases he : e.1 = k
    · simp [storeGet, he]
    · have hne : ¬k = e.1 := fun h => he h.symm
      simp [storeGet, he, hne, ih]

lemma storeGet_storeUpdate_of_mem (c : Store) (k : List String) (q : List Sample)
    (hm : k ∈ storeKeys c) : storeGet (storeUpdate c k q) k = some q := by
  induction c with
  | nil => simp [storeKeys] at hm
  | cons e rest ih =>
    by_cases he : e.1 = k
    · simp [storeUpdate, he, storeGet]
    · simp [storeKeys, he] at hm
      rcases hm with hm | hm
      · exact absurd hm.symm he
      · simpa [storeUpdate, he, storeGet] using ih (by simpa [storeKeys] using hm)

/-! ### Per-key FIFO behaviour (insertion only on one key) -/

lemma cacheInsert_same_key (h l : Nat) (k : List String) (q : List Sample) (s : Sample) :
    cacheInsert h l [(k, q)] k s =
      ([(k, (if q.length ≥ h then q.tail else q) ++ [s])], false) := by
  simp [cacheInsert, storeGet_singleton, storeUpdate_singleton]

lemma cacheInsert_empty (h l : Nat) (k : List String) (s : Sample) (hl : 1 ≤ l) :
    cacheInsert h l [] k s = ([(k, [s])], false) := by
  simp [cacheInsert, storeGet, show ¬(0 ≥ l) by omega]

lemma insertAll_append_singleton (h l : Nat) (c : Store) (ss : List Sample) (s : Sample) :
    insertAll h l c (ss ++ [s]) =
      (cacheInsert h l (insertAll h l c ss) s.key_expr s).1 := by
  simp [insertAll, List.foldl_append]

lemma insertAll_single_key (h l : Nat) (hh : 1 ≤ h) (hl : 1 ≤ l) (k : List String)
    (ss : List Sample) (hk : ∀ s ∈ ss, s.key_expr = k) :
    insertAll h l [] ss = if ss.isEmpty then [] else [(k, ss.drop (ss.length - h))] := by
  induction ss using List.reverseRecOn with
  | nil => rfl
  | append_singleton ss s ih =>
    have hks : s.key_expr = k := hk s (by simp)
    have hk' : ∀ t ∈ ss, t.key_expr = k := fun t ht => hk t (by simp [ht])
    by_cases hss : ss.isEmpty
    · have hnil : ss = [] := List.isEmpty_iff.mp hss
      subst hnil
      show (cacheInsert h l (insertAll h l [] []) s.key_expr s).1 = _
      rw [show insertAll h l [] [] = [] from rfl, hks, cacheInsert_empty h l k s hl]
      simp [Nat.sub_eq_zero_of_le hh]
    · rw [insertAll_append_singleton, ih hk', if_neg hss, hks, cacheInsert_same_key]
      have hnil : ss ≠ [] := fun hn => hss (by simp [hn])
      have hN : 0 < ss.length := List.length_pos.mpr hnil
      have hlen : (ss.drop (ss.length - h)).length = ss.length - (ss.length - h) :=
        List.length_drop _ _
      dsimp only
      rw [if_neg (show ¬(ss ++ [s]).isEmpty = true by simp)]
      by_cases hcase : h ≤ ss.length
      · rw [if_pos (show (ss.drop (ss.length - h)).length ≥ h by rw [hlen]; omega)]
        rw [List.tail_drop, List.drop_append_of_le_length
            (show (ss ++ [s]).length - h ≤ ss.length by simp; omega)]
        have harith : ss.length - h + 1 = (ss ++ [s]).length - h := by simp; omega
        rw [harith]
      · rw [if_neg (show ¬(ss.drop (ss.length - h)).length ≥ h by rw [hlen]; omega)]
        have h0 : ss.length - h = 0 := by omega
        have h1 : (ss ++ [s]).length - h = 0 := by simp; omega
        rw [h0, h1]
        simp

lemma mem_storeKeys_of_storeGet (c : Store) (k : List String) (q : List Sample)
    (hget : storeGet c k = some q) : k ∈ storeKeys c := by
  by_contra hmem
  rw [(storeGet_eq_none_iff c k).mpr hmem] at hget
  exact Option.noConfusion hget

lemma storeKeys_append (c : Store) (e : List String × List Sample) :
    storeKeys (c ++ [e]) = storeKeys c ++ [e.1] := by
  simp [storeKeys]

lemma cacheInsert_nodup_le (h l : Nat) (c : Store) (k : List String) (s : Sample) :
    ((storeKeys c).Nodup → (storeKeys (cacheInsert h l c k s).1).Nodup) ∧
    (c.length ≤ l → (cacheInsert h l c k s).1.length ≤ l) := by
  cases hget : storeGet c k with
  | some q =>
      simp only [cacheInsert, hget]
      exact ⟨fun hn => by simpa [storeKeys_storeUpdate] using hn,
        fun hle => by simpa [storeUpdate_length] using hle⟩
  | none =>
      by_cases hlim : c.length ≥ l
      · simp [cacheInsert, hget, hlim]
      · simp only [cacheInsert, hget, if_neg hlim]
        constructor
        · intro hn
          have hk : k ∉ storeKeys c := (storeGet_eq_none_iff c k).mp hget
          rw [storeKeys_append]
          simp [List.nodup_append, hn, hk]
        · intro _
          simp only [List.length_append, List.length_singleton]
          omega

lemma insertAll_nodup_le (h l : Nat) (ss : List Sample) (c : Store)
    (hn : (storeKeys c).Nodup) (hle : c.length ≤ l) :
    (storeKeys (insertAll h l c ss)).Nodup ∧ (insertAll h l c ss).length ≤ l := by
  induction ss generalizing c with
  | nil => exact ⟨hn, hle⟩
  | cons s rest ih =>
      have H := cacheInsert_nodup_le h l c s.key_expr s
      exact ih _ (H.1 hn) (H.2 hle)

/-- A small demo store with two entries, used to instantiate universally
quantified statements at concrete inputs. -/
def demoStore : Store :=
  [(["a","1"], [Sample.mk ["a","1"] 10]), (["a","2"], [Sample.mk ["a","2"] 20])]

/-! ### The claims -/

/-- C1 (amended: the history value is at least 1): for every history
`h ≥ 1`, limit `≥ 1`, key `k` and sequence of `N` samples inserted for
stored key `k`, the cache entry for `k` contains exactly `min N h`
samples, equal to the last `min N h` inserted samples in insertion order
(the oldest element having been evicted first when the entry was full). -/
theorem C1_per_key_fifo_bound (h l : Nat) (hh : 1 ≤ h) (hl : 1 ≤ l) (k : List String)
    (ss : List Sample) (hk : ∀ s ∈ ss, s.key_expr = k) :
    ((storeGet (insertAll h l [] ss) k).getD []) = ss.drop (ss.length - h) ∧
    ((storeGet (insertAll h l [] ss) k).getD []).length = min ss.length h := by
  have H := insertAll_single_key h l hh hl k ss hk
  have h1 : ((storeGet (insertAll h l [] ss) k).getD []) = ss.drop (ss.length - h) := by
    rw [H]
    by_cases hss : ss.isEmpty
    · have hnil : ss = [] := List.isEmpty_iff.mp hss
      subst hnil
      simp [storeGet]
    · rw [if_neg hss, storeGet_singleton, Option.getD_some]
  refine ⟨h1, ?_⟩
  rw [h1, List.length_drop]
  omega

/-- Witness for C1: history 2, limit 2, three inserts on key `a` keep the
last two samples. -/
theorem C1_per_key_fifo_bound_witness :
    (1 ≤ 2 ∧ 1 ≤ 2 ∧
      ∀ s ∈ [Sample.mk ["a"] 1, Sample.mk ["a"] 2, Sample.mk ["a"] 3], s.key_expr = ["a"]) ∧
    ((storeGet (insertAll 2 2 []
        [Sample.mk ["a"] 1, Sample.mk ["a"] 2, Sample.mk ["a"] 3]) ["a"]).getD []) =
      [Sample.mk ["a"] 1, Sample.mk ["a"] 2, Sample.mk ["a"] 3].drop
        ([Sample.mk ["a"] 1, Sample.mk ["a"] 2, Sample.mk ["a"] 3].length - 2) ∧
    ((storeGet (insertAll 2 2 []
        [Sample.mk ["a"] 1, Sample.mk ["a"] 2, Sample.mk ["a"] 3]) ["a"]).getD []).length =
      min [Sample.mk ["a"] 1, Sample.mk ["a"] 2, Sample.mk ["a"] 3].length 2 := by
  have H := C1_per_key_fifo_bound 2 2 (by decide) (by decide) ["a"]
    [Sample.mk ["a"] 1, Sample.mk ["a"] 2, Sample.mk ["a"] 3] (by decide)
  exact ⟨⟨by decide, by decide, by decide⟩, H.1, H.2⟩

/-- C1 as stated fails at history 0: after one insert for key `a` the
entry holds one sample, not `min 1 0 = 0` samples (the code creates a
fresh one-element entry regardless of the history bound). It also fails
at resource limit 0, where no entry is ever created. -/
theorem C1_per_key_fifo_bound_cex :
    ¬(((storeGet (insertAll 0 10 [] [Sample.mk ["a"] 7]) ["a"]).getD []).length =
        min [Sample.mk ["a"] 7].length 0) ∧
    ¬(((storeGet (insertAll 1 0 [] [Sample.mk ["a"] 7]) ["a"]).getD []).length =
        min [Sample.mk ["a"] 7].length 1) := by
  exact ⟨by decide, by decide⟩

/-- C2: with `resources_limit = L`, after any sequence of insertions the
number of distinct stored keys is at most `L`; an insertion for a new key
with `L` keys present leaves the store unchanged (the sample is discarded
and the event logged), while an insertion for an already-present key still
succeeds (the entry is updated with the sample pushed at the tail). -/
theorem C2_resource_cap (h L : Nat) :
    (∀ ss : List Sample,
        (storeKeys (insertAll h L [] ss)).Nodup ∧ (insertAll h L [] ss).length ≤ L) ∧
    (∀ (c : Store) (s : Sample), L ≤ c.length → storeGet c s.key_expr = none →
        handleSample h L none c s = some (c, true)) ∧
    (∀ (c : Store) (s : Sample) (q : List Sample), storeGet c s.key_expr = some q →
        handleSample h L none c s =
          some (storeUpdate c s.key_expr ((if q.length ≥ h then q.tail else q) ++ [s]), false) ∧
        storeGet (storeUpdate c s.key_expr ((if q.length ≥ h then q.tail else q) ++ [s]))
            s.key_expr = some ((if q.length ≥ h then q.tail else q) ++ [s])) := by
  refine ⟨fun ss => insertAll_nodup_le h L ss [] (by simp [storeKeys]) (by simp), ?_, ?_⟩
  · intro c s hL hget
    simp [handleSample, storedKeyOf, cacheInsert, hget, hL]
  · intro c s q hget
    refine ⟨by simp [handleSample, storedKeyOf, cacheInsert, hget], ?_⟩
    exact storeGet_storeUpdate_of_mem c s.key_expr _
      (mem_storeKeys_of_storeGet c s.key_expr q hget)

/-- Witness for C2: limit 2, the third distinct key `a/3` is refused while
the store holds `a/1` and `a/2`; re-inserting on `a/1` still succeeds. -/
theorem C2_resource_cap_witness :
    ((storeKeys (insertAll 1 2 [] [Sample.mk ["a","1"] 10, Sample.mk ["a","2"] 20,
          Sample.mk ["a","3"] 30])).Nodup ∧
      (insertAll 1 2 [] [Sample.mk ["a","1"] 10, Sample.mk ["a","2"] 20,
          Sample.mk ["a","3"] 30]).length ≤ 2) ∧
    (2 ≤ demoStore.length ∧ storeGet demoStore ["a","3"] = none ∧
      handleSample 1 2 none demoStore (Sample.mk ["a","3"] 30) = some (demoStore, true)) ∧
    (storeGet demoStore ["a","1"] = some [Sample.mk ["a","1"] 10] ∧
      handleSample 1 2 none demoStore (Sample.mk ["a","1"] 11) =
        some ([(["a","1"], [Sample.mk ["a","1"] 11]),
               (["a","2"], [Sample.mk ["a","2"] 20])], false)) := by
  have H := C2_resource_cap 1 2
  refine ⟨H.1 _, ⟨by decide, by decide,
    H.2.1 demoStore (Sample.mk ["a","3"] 30) (by decide) (by decide)⟩, by decide, ?_⟩
  have H3 := (H.2.2 demoStore (Sample.mk ["a","1"] 11) [Sample.mk ["a","1"] 10] (by decide)).1
  simpa [demoStore, storeUpdate] using H3

lemma flatMap_isInfix {α β : Type} (f : α → List β) (l : List α) (x : α) (hx : x ∈ l) :
    f x <:+: l.flatMap f := by
  induction l with
  | nil => simp at hx
  | cons a t ih =>
    rw [List.flatMap_cons]
    rcases List.mem_cons.mp hx with rfl | hx
    · exact (List.prefix_append _ _).isInfix
    · exact (ih hx).trans (List.suffix_append _ _).isInfix

/-- C3: for a query whose selector contains no `*` character, the replies
sent are exactly the samples of the cache entry stored under the selector
key, in insertion order (each reply equal to the stored sample); if no
entry has that key the reply list is empty, the store is untouched and the
task continues normally. -/
theorem C3_exact_selector (history limit : Nat) (pfxOpt : Option (List String))
    (replyOk : Nat → Bool) (cache : Store) (sel : List String)
    (hsel : selHasStar sel = false) :
    (step history limit pfxOpt replyOk cache (.queryRecv (some sel))).replies =
      (storeGet cache sel).getD [] ∧
    (step history limit pfxOpt replyOk cache (.queryRecv (some sel))).cache = cache ∧
    (step history limit pfxOpt replyOk cache (.queryRecv (some sel))).outcome = .next := by
  refine ⟨?_, rfl, rfl⟩
  show answerQuery cache sel = (storeGet cache sel).getD []
  simp only [answerQuery, hsel, Bool.not_false, if_true]
  cases storeGet cache sel <;> simp

/-- Witness for C3: the exact query `a/1` on the demo store replies that
entry's single sample. -/
theorem C3_exact_selector_witness :
    selHasStar ["a","1"] = false ∧
    (step 5 5 none (fun _ => true) demoStore (.queryRecv (some ["a","1"]))).replies =
      (storeGet demoStore ["a","1"]).getD [] ∧
    (step 5 5 none (fun _ => true) demoStore (.queryRecv (some ["a","1"]))).cache = demoStore ∧
    (step 5 5 none (fun _ => true) demoStore (.queryRecv (some ["a","1"]))).outcome = .next :=
  ⟨by decide, C3_exact_selector 5 5 none (fun _ => true) demoStore ["a","1"] (by decide)⟩

/-- C4: for a query whose selector contains a `*` character, a stored
sample is replied iff its entry's stored key intersects the selector, and
each intersecting entry's samples appear in the replies contiguously in
insertion order. -/
theorem C4_wildcard_selector (history limit : Nat) (pfxOpt : Option (List String))
    (replyOk : Nat → Bool) (cache : Store) (sel : List String)
    (hsel : selHasStar sel = true) :
    (∀ s : Sample,
      s ∈ (step history limit pfxOpt replyOk cache (.queryRecv (some sel))).replies ↔
        ∃ k q, (k, q) ∈ cache ∧ intersects sel k = true ∧ s ∈ q) ∧
    (∀ (k : List String) (q : List Sample), (k, q) ∈ cache → intersects sel k = true →
      q <:+: (step history limit pfxOpt replyOk cache (.queryRecv (some sel))).replies) := by
  have hrep : (step history limit pfxOpt replyOk cache (.queryRecv (some sel))).replies =
      (cache.filter (fun e => intersects sel e.1)).flatMap (fun e => e.2) := by
    show answerQuery cache sel = _
    simp [answerQuery, hsel]
  constructor
  · intro s
    rw [hrep, List.mem_flatMap]
    constructor
    · rintro ⟨e, he, hs⟩
      have hf := List.mem_filter.mp he
      exact ⟨e.1, e.2, hf.1, hf.2, hs⟩
    · rintro ⟨k, q, hmem, hint, hs⟩
      exact ⟨(k, q), List.mem_filter.mpr ⟨hmem, hint⟩, hs⟩
  · intro k q hmem hint
    rw [hrep]
    exact flatMap_isInfix (fun e => e.2) (cache.filter (fun e => intersects sel e.1)) (k, q)
      (List.mem_filter.mpr ⟨hmem, hint⟩)

/-- Witness for C4: the wildcard query `a/*` on the demo store. -/
theorem C4_wildcard_selector_witness :
    selHasStar ["a","*"] = true ∧
    (∀ s : Sample,
      s ∈ (step 5 5 none (fun _ => true) demoStore (.queryRecv (some ["a","*"]))).replies ↔
        ∃ k q, (k, q) ∈ demoStore ∧ intersects ["a","*"] k = true ∧ s ∈ q) ∧
    (∀ (k : List String) (q : List Sample), (k, q) ∈ demoStore →
      intersects ["a","*"] k = true →
      q <:+: (step 5 5 none (fun _ => true) demoStore (.queryRecv (some ["a","*"]))).replies) := by
  have H := C4_wildcard_selector 5 5 none (fun _ => true) demoStore ["a","*"] (by decide)
  exact ⟨by decide, H.1, H.2⟩

lemma keConcrete_keOk {k : List String} (h : keConcrete k = true) : keOk k = true := by
  simp only [keConcrete, Bool.and_eq_true] at h
  exact h.1

lemma selHasStar_of_keConcrete {k : List String} (h : keConcrete k = true) :
    selHasStar k = false := by
  simp only [keConcrete, Bool.and_eq_true, List.all_eq_true, Bool.not_eq_true'] at h
  simp only [selHasStar, List.any_eq_false]
  intro c hc
  simp [h.2 c hc]

lemma selHasStar_append {a b : List String} (ha : selHasStar a = false)
    (hb : selHasStar b = false) : selHasStar (a ++ b) = false := by
  simp only [selHasStar, List.any_append] at *
  rw [ha, hb]
  rfl

lemma storedKeyOf_isSome (pfxOpt : Option (List String)) (k : List String)
    (hp : pfxOk pfxOpt = true) (hk : keOk k = true) :
    ∃ sk, storedKeyOf pfxOpt k = some sk := by
  cases pfxOpt with
  | none => exact ⟨k, rfl⟩
  | some p => exact ⟨p ++ k, keJoin_of_keOk (by simpa [pfxOk] using hp) hk⟩

lemma storedKeyOf_keOk (pfxOpt : Option (List String)) (k sk : List String)
    (hk : keOk k = true) (hsk : storedKeyOf pfxOpt k = some sk) : keOk sk = true := by
  cases pfxOpt with
  | none =>
    simp only [storedKeyOf, Option.some.injEq] at hsk
    exact hsk ▸ hk
  | some p =>
    simp only [storedKeyOf, keJoin] at hsk
    by_cases hok : keOk (p ++ k) = true
    · rw [if_pos hok] at hsk
      exact (Option.some.injEq _ _).mp hsk ▸ hok
    · rw [if_neg hok] at hsk
      exact Option.noConfusion hsk

/-- C6: with queryable prefix `P`, a sample received under concrete
publication key `k` is stored under `P/k` (with no prefix, under `k`
itself); an exact query on `P/k` replies it, while a query on `k` alone
(given `k` does not intersect `P/k`) replies nothing. -/
theorem C6_queryable_pfx_semantics (history limit : Nat) (P k : List String) (s : Sample)
    (hP : keConcrete P = true) (hk : keConcrete k = true) (hs : s.key_expr = k)
    (hlim : 1 ≤ limit) (hni : intersects k (P ++ k) = false) :
    handleSample history limit (some P) [] s = some ([(P ++ k, [s])], false) ∧
    handleSample history limit none [] s = some ([(k, [s])], false) ∧
    answerQuery [(P ++ k, [s])] (P ++ k) = [s] ∧
    answerQuery [(P ++ k, [s])] k = [] := by
  have hPo := keConcrete_keOk hP
  have hko := keConcrete_keOk hk
  have hjoin : keJoin P k = some (P ++ k) := keJoin_of_keOk hPo hko
  refine ⟨?_, ?_, ?_, ?_⟩
  · simp only [handleSample, storedKeyOf, hs, hjoin]
    rw [cacheInsert_empty _ _ _ _ hlim]
  · simp only [handleSample, storedKeyOf, hs]
    rw [cacheInsert_empty _ _ _ _ hlim]
  · have hstar : selHasStar (P ++ k) = false :=
      selHasStar_append (selHasStar_of_keConcrete hP) (selHasStar_of_keConcrete hk)
    simp only [answerQuery, hstar, Bool.not_false, if_true, storeGet_singleton]
  · have hstar : selHasStar k = false := selHasStar_of_keConcrete hk
    have hne : ¬((P ++ k, [s]).1 = k) := by
      intro he
      have hlen : (P ++ k).length = k.length := congrArg List.length he
      rw [List.length_append] at hlen
      have hP1 : P ≠ [] := by
        intro hPn
        rw [hPn] at hPo
        simp [keOk] at hPo
      have : 0 < P.length := List.length_pos.mpr hP1
      omega
    simp only [answerQuery, hstar, Bool.not_false, if_true, storeGet, if_neg hne]

/-- Witness for C6: prefix `cache`, publication key `a/b`. -/
theorem C6_queryable_pfx_semantics_witness :
    (keConcrete ["cache"] = true ∧ keConcrete ["a", "b"] = true ∧
      (Sample.mk ["a", "b"] 1).key_expr = ["a", "b"] ∧ 1 ≤ 5 ∧
      intersects ["a", "b"] (["cache"] ++ ["a", "b"]) = false) ∧
    handleSample 3 5 (some ["cache"]) [] (Sample.mk ["a", "b"] 1) =
      some ([(["cache"] ++ ["a", "b"], [Sample.mk ["a", "b"] 1])], false) ∧
    handleSample 3 5 none [] (Sample.mk ["a", "b"] 1) =
      some ([(["a", "b"], [Sample.mk ["a", "b"] 1])], false) ∧
    answerQuery [(["cache"] ++ ["a", "b"], [Sample.mk ["a", "b"] 1])]
      (["cache"] ++ ["a", "b"]) = [Sample.mk ["a", "b"] 1] ∧
    answerQuery [(["cache"] ++ ["a", "b"], [Sample.mk ["a", "b"] 1])] ["a", "b"] = [] := by
  have hni : intersects ["a", "b"] (["cache"] ++ ["a", "b"]) = false := by
    simp [intersects, chunkIntersect]
  exact ⟨⟨by decide, by decide, by decide, by decide, hni⟩,
    C6_queryable_pfx_semantics 3 5 ["cache"] ["a", "b"] (Sample.mk ["a", "b"] 1)
      (by decide) (by decide) (by decide) (by decide) hni⟩

/-- C7: if the configured publication key expression is invalid, or the
queryable prefix is present and invalid, `build()` returns an error and
performs no side effect: neither the subscriber nor the queryable is
declared. -/
theorem C7_build_validation (conf : BuilderCfg) (subOk querOk : Bool)
    (hbad : (∃ e, conf.pub_key_expr = .error e) ∨
      (∃ e, conf.queryablePfx = some (.error e))) :
    (newCache conf subOk querOk).1.isOk = false ∧ (newCache conf subOk querOk).2 = [] := by
  rcases hbad with ⟨e, he⟩ | ⟨e, he⟩
  · simp [newCache, he, Except.isOk, Except.toBool]
  · cases hpub : conf.pub_key_expr with
    | error e2 => simp [newCache, hpub, Except.isOk, Except.toBool]
    | ok ke => simp [newCache, hpub, he, Except.isOk, Except.toBool]

/-- Witness for C7: an invalid publication key expression. -/
theorem C7_build_validation_witness :
    ((∃ e, (BuilderCfg.mk (Except.error "bad") none 1024 none).pub_key_expr =
        Except.error e) ∨
      (∃ e, (BuilderCfg.mk (Except.error "bad") none 1024 none).queryablePfx =
        some (Except.error e))) ∧
    (newCache (BuilderCfg.mk (Except.error "bad") none 1024 none) true true).1.isOk = false ∧
    (newCache (BuilderCfg.mk (Except.error "bad") none 1024 none) true true).2 = [] :=
  ⟨Or.inl ⟨"bad", rfl⟩, C7_build_validation _ true true (Or.inl ⟨"bad", rfl⟩)⟩

/-- C8 as stated is false at the success path: awaiting close does not
send the shutdown signal first — the effect trace starts with the
undeclare of the queryable, and the stop sender (whose drop closes the
shutdown channel) is dropped last. -/
theorem C8_close_order_cex :
    ¬((closeCache true true).2 =
        [Effect.dropStop, Effect.undeclQueryable, Effect.undeclSub]) := by
  decide

/-- C8 (amended): awaiting close (a) awaits the undeclare of the
queryable, (b) awaits the undeclare of the subscriber, (c) sends the
shutdown signal by dropping the stop sender (closing the shutdown
channel), and (d) resolves `Ok(())`, when both undeclarations succeed. -/
theorem C8_close_order :
    closeCache true true =
      (Except.ok (), [Effect.undeclQueryable, Effect.undeclSub, Effect.dropStop]) := rfl

/-- C9: the cache task ends an iteration with a return only on the
shutdown event; channel receive errors and reply failures only log —
they neither terminate the task (no halt, no panic given valid keys) nor
change the store, and the store, replies and outcome are independent of
which replies fail. -/
theorem C9_terminate_only_on_shutdown (history limit : Nat) (pfxOpt : Option (List String))
    (f g : Nat → Bool) (cache : Store) (ev : Event)
    (hp : pfxOk pfxOpt = true) (he : evOk ev = true) :
    ((step history limit pfxOpt f cache ev).outcome = .halted ↔ ev = .stopRecv) ∧
    (step history limit pfxOpt f cache ev).outcome ≠ .crashed ∧
    (∀ r, ev = .queryRecv r → (step history limit pfxOpt f cache ev).cache = cache) ∧
    (ev = .sampleRecv none → (step history limit pfxOpt f cache ev).cache = cache) ∧
    (step history limit pfxOpt g cache ev).cache = (step history limit pfxOpt f cache ev).cache ∧
    (step history limit pfxOpt g cache ev).replies =
      (step history limit pfxOpt f cache ev).replies ∧
    (step history limit pfxOpt g cache ev).outcome =
      (step history limit pfxOpt f cache ev).outcome := by
  cases ev with
  | sampleRecv r =>
    cases r with
    | none => simp [step]
    | some s =>
      obtain ⟨sk, hsk⟩ := storedKeyOf_isSome pfxOpt s.key_expr hp (by simpa [evOk] using he)
      simp [step, handleSample, hsk]
  | queryRecv r =>
    cases r with
    | none => simp [step]
    | some sel => simp [step]
  | stopRecv => simp [step]

/-- Witness for C9: a sample event under a configured prefix. -/
theorem C9_terminate_only_on_shutdown_witness :
    (pfxOk (some ["cache"]) = true ∧ evOk (.sampleRecv (some (Sample.mk ["a"] 1))) = true) ∧
    (((step 2 2 (some ["cache"]) (fun _ => true) []
        (.sampleRecv (some (Sample.mk ["a"] 1)))).outcome = .halted ↔
      (Event.sampleRecv (some (Sample.mk ["a"] 1))) = .stopRecv) ∧
    (step 2 2 (some ["cache"]) (fun _ => true) []
      (.sampleRecv (some (Sample.mk ["a"] 1)))).outcome ≠ .crashed ∧
    (∀ r, (Event.sampleRecv (some (Sample.mk ["a"] 1))) = .queryRecv r →
      (step 2 2 (some ["cache"]) (fun _ => true) []
        (.sampleRecv (some (Sample.mk ["a"] 1)))).cache = []) ∧
    ((Event.sampleRecv (some (Sample.mk ["a"] 1))) = .sampleRecv none →
      (step 2 2 (some ["cache"]) (fun _ => true) []
        (.sampleRecv (some (Sample.mk ["a"] 1)))).cache = []) ∧
    (step 2 2 (some ["cache"]) (fun _ => false) []
        (.sampleRecv (some (Sample.mk ["a"] 1)))).cache =
      (step 2 2 (some ["cache"]) (fun _ => true) []
        (.sampleRecv (some (Sample.mk ["a"] 1)))).cache ∧
    (step 2 2 (some ["cache"]) (fun _ => false) []
        (.sampleRecv (some (Sample.mk ["a"] 1)))).replies =
      (step 2 2 (some ["cache"]) (fun _ => true) []
        (.sampleRecv (some (Sample.mk ["a"] 1)))).replies ∧
    (step 2 2 (some ["cache"]) (fun _ => false) []
        (.sampleRecv (some (Sample.mk ["a"] 1)))).outcome =
      (step 2 2 (some ["cache"]) (fun _ => true) []
        (.sampleRecv (some (Sample.mk ["a"] 1)))).outcome) :=
  ⟨⟨by decide, by decide⟩,
    C9_terminate_only_on_shutdown 2 2 (some ["cache"]) (fun _ => true) (fun _ => false) []
      (.sampleRecv (some (Sample.mk ["a"] 1))) (by decide) (by decide)⟩

lemma cacheInsert_keysOk (h l : Nat) (c : Store) (sk : List String) (s : Sample)
    (hc : storeKeysOk c = true) (hsk : keOk sk = true) :
    storeKeysOk (cacheInsert h l c sk s).1 = true := by
  cases hget : storeGet c sk with
  | some q =>
    simp only [cacheInsert, hget]
    simpa [storeKeysOk, storeKeys_storeUpdate] using hc
  | none =>
    by_cases hlim : c.length ≥ l
    · simpa [cacheInsert, hget, hlim] using hc
    · simp only [cacheInsert, hget, if_neg hlim]
      simp only [storeKeysOk] at hc ⊢
      rw [storeKeys_append]
      simp only [List.all_append, hc, List.all_cons, List.all_nil, hsk]
      rfl

lemma step_keysOk (history limit : Nat) (pfxOpt : Option (List String)) (f : Nat → Bool)
    (cache : Store) (ev : Event) (hp : pfxOk pfxOpt = true) (he : evOk ev = true)
    (hc : storeKeysOk cache = true) :
    storeKeysOk (step history limit pfxOpt f cache ev).cache = true := by
  cases ev with
  | sampleRecv r =>
    cases r with
    | none => simpa [step] using hc
    | some s =>
      have hk : keOk s.key_expr = true := by simpa [evOk] using he
      obtain ⟨sk, hsk⟩ := storedKeyOf_isSome pfxOpt s.key_expr hp hk
      have hskOk : keOk sk = true := storedKeyOf_keOk pfxOpt s.key_expr sk hk hsk
      simp only [step, handleSample, hsk]
      exact cacheInsert_keysOk history limit cache sk s hc hskOk
  | queryRecv r => cases r <;> simpa [step] using hc
  | stopRecv => simpa [step] using hc

/-- C10: starting from the empty store, after any sequence of events whose
samples carry valid key expressions (as the `KeyExpr` type guarantees) and
with a valid configured prefix, every key present in the store is a valid
key expression — so the `keyexpr::from_str_unchecked` cast applied to
stored keys during the wildcard scan never sees an invalid key
expression. -/
theorem C10_stored_keys_validated (history limit : Nat) (pfxOpt : Option (List String))
    (f : Nat → Bool) (evs : List Event)
    (hp : pfxOk pfxOpt = true) (he : evsOk evs = true) :
    storeKeysOk (runEvents history limit pfxOpt f [] evs) = true ∧
    ∀ e ∈ runEvents history limit pfxOpt f [] evs, keOk e.1 = true := by
  have main : ∀ (l : List Event) (c : Store), evsOk l = true → storeKeysOk c = true →
      storeKeysOk (runEvents history limit pfxOpt f c l) = true := by
    intro l
    induction l with
    | nil => intro c _ hc; exact hc
    | cons ev rest ih =>
      intro c hok hc
      simp only [evsOk, List.all_cons, Bool.and_eq_true] at hok
      exact ih _ hok.2 (step_keysOk history limit pfxOpt f c ev hp hok.1 hc)
  have hmain := main evs [] he (by simp [storeKeysOk, storeKeys])
  refine ⟨hmain, ?_⟩
  intro e hmem
  simp only [storeKeysOk, List.all_eq_true, storeKeys] at hmain
  exact hmain e.1 (List.mem_map.mpr ⟨e, hmem, rfl⟩)

/-- Witness for C10: one stored sample, a wildcard query, a failed
receive and the shutdown. -/
theorem C10_stored_keys_validated_witness :
    (pfxOk (some ["cache"]) = true ∧
      evsOk [.sampleRecv (some (Sample.mk ["a"] 1)), .queryRecv (some ["**"]),
        .sampleRecv none, .stopRecv] = true) ∧
    storeKeysOk (runEvents 4 4 (some ["cache"]) (fun _ => true) []
      [.sampleRecv (some (Sample.mk ["a"] 1)), .queryRecv (some ["**"]),
        .sampleRecv none, .stopRecv]) = true ∧
    ∀ e ∈ runEvents 4 4 (some ["cache"]) (fun _ => true) []
      [.sampleRecv (some (Sample.mk ["a"] 1)), .queryRecv (some ["**"]),
        .sampleRecv none, .stopRecv], keOk e.1 = true :=
  ⟨⟨by decide, by decide⟩,
    C10_stored_keys_validated 4 4 (some ["cache"]) (fun _ => true)
      [.sampleRecv (some (Sample.mk ["a"] 1)), .queryRecv (some ["**"]),
        .sampleRecv none, .stopRecv] (by decide) (by decide)⟩

end ZenohRC
